import Mathlib

/-!
Verification development for the TiledArray distributed block-tiled array
library.  The definitions below are shallow embeddings of the C++ source:

* `TiledArray.Deleter`  — `DistArray::lazy_deleter` (src/TiledArray/dist_array.h)
* `TiledArray.ExprCall` — `DistArray::operator()(const std::string&)`
* `TiledArray.PmapM`    — `ReplicatedPmap` (src/TiledArray/pmap/replicated_pmap.h)
  together with `DistArray::make_replicated`
* `TiledArray.Uninit`   — accessor behaviour of a default-constructed `DistArray`
* `TiledArray.TileOp`   — the `Mult` tile operation (src/TiledArray/tile_op/mult.h)
* `TiledArray.Kernels`  — `detail::tensor_reduce` (src/TiledArray/tensor/kernels.h)
* `ShapeH`              — `Shape::ord` / `Shape::coord` (src/shape.h)
* `TiledArray.SparseGemm` — the sparse-shape `gemm` norm bound (modelled from the
  spec; `sparse_shape.h` itself is not part of the source sample)

Machine integers are modelled by `Nat`/`Int` (the quantities involved are sizes,
ranks and ordinals that do not overflow in the claims considered), fallible
code by `Option`/`Except`/outcome types, and side effects by explicit action
traces.
-/

namespace TiledArray

/-! ### `DistArray::lazy_deleter` (dist_array.h, lines 80-123) -/

namespace Deleter

/-- Observable actions performed by `lazy_deleter`:  increment/decrement of the
static `cleanup_counter_`, deletion of the implementation object, the
`fprintf(stderr, ...)` log message carrying the process rank, and (never
emitted by the source) propagation of an exception out of the deleter. -/
inductive DAction where
  | incCounter
  | decCounter
  | deleteImpl
  | logRank (rank : Nat)
  | rethrow
  deriving DecidableEq, Repr

/-- The possible outcomes of the `world.gop.lazy_sync(id, ...)` call:  normal
return (the registered callback later deletes the implementation and
decrements the counter), or a thrown `madness::MadnessException`,
`std::exception`, or unknown exception. -/
inductive SyncOutcome where
  | success
  | madnessExc
  | stdExc
  | unknownExc
  deriving DecidableEq, Repr

/-- Exception classes distinguished by the three catch blocks. -/
inductive ExcKind where
  | madness
  | stdExc
  | unknown
  deriving DecidableEq, Repr

/-- The `lazy_sync` call: on success the registered callback
`[pimpl]() { delete pimpl; DistArray_::cleanup_counter_--; }` eventually runs
(its actions are the returned trace); otherwise the call throws. -/
def lazySyncCall (outcome : SyncOutcome) : Except ExcKind (List DAction) :=
  match outcome with
  | .success => .ok [.deleteImpl, .decCounter]
  | .madnessExc => .error .madness
  | .stdExc => .error .stdExc
  | .unknownExc => .error .unknown

/-- `DistArray::lazy_deleter(pimpl)`.  A null `pimpl` does nothing.  If the
madness runtime is not initialized the implementation is deleted immediately.
Otherwise `cleanup_counter_++` precedes the `try { lazy_sync ... }`; each of
the three catch blocks prints the error with the process rank, decrements the
counter and deletes the implementation, absorbing the exception. -/
def lazy_deleter (pimplNull : Bool) (runtimeInit : Bool) (rank : Nat)
    (outcome : SyncOutcome) : List DAction :=
  if pimplNull then []
  else if runtimeInit then
    .incCounter ::
      (match lazySyncCall outcome with
       | .ok callbackActions => callbackActions
       | .error _ => [.logRank rank, .decCounter, .deleteImpl])
  else [.deleteImpl]

end Deleter

/-! ### `DistArray::operator()(const std::string&)` (dist_array.h, lines 524-541) -/

namespace ExprCall

/-- Outcome of calling an array with an index string: either a tensor
expression (`TsrExpr`) is returned or a fatal user error
(`TA_USER_ERROR_MESSAGE` + `TA_EXCEPTION`) is raised. -/
inductive CallOutcome where
  | expr
  | fatal
  deriving DecidableEq, Repr

/-- `1u + std::count_if(vars.begin(), vars.end(), [](char c){ return c == ','; })`:
the number of comma-separated labels in the index string. -/
def numLabels (vars : List Char) : Nat :=
  1 + vars.countP (fun c => c == ',')

/-- `DistArray::operator()(const std::string& vars)`: when the array is
initialized (`bool(pimpl_)`) and the label count differs from
`trange().tiles_range().rank()`, a fatal error is raised; otherwise a
`TsrExpr` is returned. -/
def operatorCall (pimplSet : Bool) (rank : Nat) (vars : List Char) : CallOutcome :=
  if pimplSet ∧ numLabels vars ≠ rank then .fatal else .expr

end ExprCall

/-! ### Process maps: `ReplicatedPmap` and `DistArray::make_replicated` -/

namespace PmapM

/-- The kind of a process map: `ReplicatedPmap` (replicated_pmap.h) or a
generic non-replicated map described by its tile-to-owner function. -/
inductive PmapKind where
  | replicatedK
  | generic (ownerFn : Nat → Nat)

/-- A process map: the number of processes, the local process rank, the number
of tiles, and the kind. -/
structure Pmap where
  procs : Nat
  rank : Nat
  size : Nat
  kind : PmapKind

/-- `owner(tile)`.  For `ReplicatedPmap` (replicated_pmap.h lines 76-79):
`TA_ASSERT(tile < size_); return rank_;` — the assertion failure is modelled
by `none`.  For a generic map it is the map's owner function (the base `Pmap`
class is not part of the source sample; modelled from the spec contract
`0 ≤ owner(i) < procs`). -/
def Pmap.owner (p : Pmap) (tile : Nat) : Option Nat :=
  match p.kind with
  | .replicatedK => if tile < p.size then some p.rank else none
  | .generic ownerFn => some (ownerFn tile)

/-- `is_local(tile)`.  For `ReplicatedPmap` (replicated_pmap.h lines 85-88):
`TA_ASSERT(tile < size_); return true;`.
Modelled from the spec: for a generic (base) `Pmap`, which is not part of the
source sample, `is_local(i)` holds exactly when `owner(i)` equals the local
rank ("the set of `is_local` tiles on rank r must equal `{i : owner(i) == r}`"). -/
def Pmap.is_local (p : Pmap) (tile : Nat) : Option Bool :=
  match p.kind with
  | .replicatedK => if tile < p.size then some true else none
  | .generic ownerFn => some (ownerFn tile == p.rank)

/-- `is_replicated()`: `true` only for `ReplicatedPmap`. -/
def Pmap.is_replicated (p : Pmap) : Bool :=
  match p.kind with
  | .replicatedK => true
  | .generic _ => false

/-- `ReplicatedPmap(world, size)`: records the world's rank and process count
and the number of tiles. -/
def replicatedPmap (procs rank size : Nat) : Pmap :=
  ⟨procs, rank, size, .replicatedK⟩

/-- The state of an initialized `DistArray` that `make_replicated` reads and
writes: the world (`size()`/`rank()`) and the installed process map. -/
structure ArrayState where
  worldSize : Nat
  worldRank : Nat
  size : Nat
  pmap : Pmap

/-- `DistArray::make_replicated` (dist_array.h lines 685-704): when the
current pmap is not replicated and the world has more than one process, a
`ReplicatedPmap(world(), size())` is constructed, a new array with that pmap
is built, the `Replicator` broadcasts the tile data, and the handle is
reassigned to the new array; otherwise the array is left unchanged.  (Tile
data movement is not modelled; the claim concerns the installed pmap.) -/
def make_replicated (a : ArrayState) : ArrayState :=
  if ¬ a.pmap.is_replicated ∧ 1 < a.worldSize then
    { a with pmap := replicatedPmap a.worldSize a.worldRank a.size }
  else a

end PmapM

/-! ### Accessors of a default-constructed `DistArray` (dist_array.h) -/

namespace Uninit

/-- Abstract payload of an `ArrayImpl`; the concrete metadata values are
irrelevant to the claim, only which pointer dereferences occur. -/
structure ImplData where
  trangeData : Nat
  rangeData : Nat
  shapeData : Nat
  pmapData : Nat
  worldData : Nat
  idData : Nat
  sizeData : Nat
  deriving DecidableEq, Repr

/-- Outcome of a public operation on a `DistArray` handle: a value, the fatal
user error raised by `TA_USER_ASSERT` in `check_pimpl`, or a dereference of
the null implementation pointer (undefined behaviour, no error raised). -/
inductive Access (α : Type) where
  | ok (a : α)
  | fatalUserError
  | nullPointerDeref
  deriving DecidableEq, Repr

/-- `DistArray::check_pimpl` (lines 743-746): `TA_USER_ASSERT(pimpl_, ...)`. -/
def check_pimpl (pimpl : Option ImplData) : Access Unit :=
  match pimpl with
  | none => .fatalUserError
  | some _ => .ok ()

/-- `DistArray::trange()` (lines 489-492): `check_pimpl(); return pimpl_->trange();`. -/
def trange (pimpl : Option ImplData) : Access Nat :=
  match check_pimpl pimpl, pimpl with
  | .ok _, some p => .ok p.trangeData
  | _, _ => .fatalUserError

/-- `DistArray::range()` (lines 497-500). -/
def range (pimpl : Option ImplData) : Access Nat :=
  match check_pimpl pimpl, pimpl with
  | .ok _, some p => .ok p.rangeData
  | _, _ => .fatalUserError

/-- `DistArray::size()` (lines 515-518). -/
def size (pimpl : Option ImplData) : Access Nat :=
  match check_pimpl pimpl, pimpl with
  | .ok _, some p => .ok p.sizeData
  | _, _ => .fatalUserError

/-- `DistArray::world()` (lines 575-578). -/
def world (pimpl : Option ImplData) : Access Nat :=
  match check_pimpl pimpl, pimpl with
  | .ok _, some p => .ok p.worldData
  | _, _ => .fatalUserError

/-- `DistArray::pmap()` (lines 589-592). -/
def pmap (pimpl : Option ImplData) : Access Nat :=
  match check_pimpl pimpl, pimpl with
  | .ok _, some p => .ok p.pmapData
  | _, _ => .fatalUserError

/-- `DistArray::is_dense()` (lines 597-600). -/
def is_dense (pimpl : Option ImplData) : Access Bool :=
  match check_pimpl pimpl, pimpl with
  | .ok _, some _ => .ok true
  | _, _ => .fatalUserError

/-- `DistArray::owner(i)` (lines 619-623): `check_index(i)` calls
`check_pimpl()` before any bounds check, so on an uninitialized array the
fatal user error is raised. -/
def owner (pimpl : Option ImplData) (_i : Nat) : Access Nat :=
  match check_pimpl pimpl, pimpl with
  | .ok _, some p => .ok p.pmapData
  | _, _ => .fatalUserError

/-- `DistArray::find(i)` (lines 307-311): `check_index(i)` → `check_pimpl()`. -/
def find (pimpl : Option ImplData) (_i : Nat) : Access Nat :=
  match check_pimpl pimpl, pimpl with
  | .ok _, some p => .ok p.sizeData
  | _, _ => .fatalUserError

/-- `DistArray::shape()` (line 610): `return pimpl_->shape();` — the
implementation pointer is dereferenced WITHOUT `check_pimpl`. -/
def shape (pimpl : Option ImplData) : Access Nat :=
  match pimpl with
  | none => .nullPointerDeref
  | some p => .ok p.shapeData

/-- `DistArray::get_shape()` (line 603): `return pimpl_->shape();` — also
without `check_pimpl`. -/
def get_shape (pimpl : Option ImplData) : Access Nat :=
  match pimpl with
  | none => .nullPointerDeref
  | some p => .ok p.shapeData

/-- `DistArray::id()` (line 267): `return pimpl_->id();` — the implementation
pointer is dereferenced WITHOUT `check_pimpl`. -/
def id (pimpl : Option ImplData) : Access Nat :=
  match pimpl with
  | none => .nullPointerDeref
  | some p => .ok p.idData

end Uninit

end TiledArray

/-! ### `Shape::ord` / `Shape::coord` over an orthotope (src/shape.h) -/

namespace ShapeH

/-- An orthotope `[lo, hi)` as the list of per-dimension `(low, high)` bounds
(the `Orthotope<DIM>` of orthotope.h, which is not part of the source
sample; coordinates are `Tuple<DIM>` of machine integers, modelled by
`List Int`). -/
abbrev Box := List (Int × Int)

/-- The per-dimension extent `high - low`. -/
def extent (p : Int × Int) : Int := p.2 - p.1

/-- `Shape::init_linear_step_` (shape.h lines 215-221):
`m_linear_step[DIM-1] = 1; m_linear_step[dim-1] = (h[dim]-l[dim]) * m_linear_step[dim]`,
i.e. the linear step of a dimension is the product of the extents of all less
significant dimensions (DIM-1 is least significant, row-major). -/
def linearStep : Box → List Int
  | [] => []
  | _ :: rest => (rest.map extent).prod :: linearStep rest

/-- Modelled from the spec: `Orthotope::includes` (orthotope.h is not part of
the source sample) — the coordinate has the box's dimension and lies in the
closed-open box `lo_i ≤ c_i < hi_i` in every dimension. -/
def includes : Box → List Int → Bool
  | [], [] => true
  | p :: bs, x :: cs => decide (p.1 ≤ x) && decide (x < p.2) && includes bs cs
  | _, _ => false

/-- The list of machine (`size_t`) extents of a box. -/
def extsN (box : Box) : List Nat := box.map (fun p => (extent p).toNat)

/-- Modelled from the spec: `Orthotope::nelements` — the volume
`∏ extent_i` of the box (orthotope.h is not part of the source sample). -/
def nelements (box : Box) : Nat := (extsN box).prod

/-- `VectorOps::dotProduct` (tuple.h is not part of the source sample;
modelled from the spec as the standard dot product). -/
def dotZ (a b : List Int) : Int := (List.zipWith (· * ·) a b).sum

/-- `Shape::ord` (shape.h lines 275-279):
`dotProduct(coord - m_orthotope->low(), m_linear_step)`. -/
def ordZ (box : Box) (c : List Int) : Int :=
  dotZ (List.zipWith (fun x p => x - p.1) c box) (linearStep box)

/-- `Shape::ord` including the `static_cast<size_t>` of the result (the cast
is value-preserving for coordinates inside the orthotope, where the dot
product is nonnegative). -/
def ord (box : Box) (c : List Int) : Nat := (ordZ box c).toNat

/-- The digit loop of `Shape::coord` (shape.h lines 288-291):
`element_index` starts default (zero) initialized; while `linear_index > 0`,
`element_index[dim] = linear_index / m_linear_step[dim]` and
`linear_index -= element_index[dim] * m_linear_step[dim]`.  `linear_index` is
a `size_t`, so the division is unsigned; the steps are nonnegative for a
valid orthotope, making `Int.toNat` the faithful conversion. -/
def coordDigits : List Int → Nat → List Nat
  | [], _ => []
  | s :: rest, k =>
    if 0 < k then (k / s.toNat) :: coordDigits rest (k - k / s.toNat * s.toNat)
    else 0 :: coordDigits rest 0

/-- `Shape::coord` (shape.h lines 282-300): the digit decomposition of the
linear index followed by `element_index += m_orthotope->low()`. -/
def coord (box : Box) (k : Nat) : List Int :=
  List.zipWith (fun (d : Nat) (p : Int × Int) => (d : Int) + p.1) (coordDigits (linearStep box) k) box

/-- Pure-`Nat` suffix products of a list of extents; `linearStep` is its cast
to `Int` for boxes with nonnegative extents. -/
def stridesN : List Nat → List Nat
  | [] => []
  | _ :: rest => rest.prod :: stridesN rest

/-- Pure-`Nat` form of the digit loop `coordDigits`. -/
def goN : List Nat → Nat → List Nat
  | [], _ => []
  | s :: rest, k =>
    if 0 < k then (k / s) :: goN rest (k - k / s * s) else 0 :: goN rest 0

/-- Pure-`Nat` dot product. -/
def dotN (a b : List Nat) : Nat := (List.zipWith (· * ·) a b).sum

/-- The per-dimension digits `c_i - lo_i` of an in-box coordinate, as machine
naturals. -/
def dsOf (box : Box) (c : List Int) : List Nat :=
  List.zipWith (fun p x => (x - p.1).toNat) box c

end ShapeH

namespace TiledArray

/-! ### The `Mult` tile operation (src/TiledArray/tile_op/mult.h) -/

namespace TileOp

/-- A tile: a range (box) plus the row-major contiguous buffer of elements
(integer element type, as in the `Tensor<int>` instantiations). -/
structure TileM where
  range : ShapeH.Box
  data : List Int
  deriving DecidableEq, Repr

/-- Modelled from the spec: `TiledArray::mult(left, right)` — out-of-place
element-wise product allocating a new tile over the left argument's range
(the `Tensor` implementation behind tile_interface.h is not part of the
source sample). -/
def mult (a b : TileM) : TileM :=
  ⟨a.range, List.zipWith (· * ·) a.data b.data⟩

/-- Modelled from the spec: `TiledArray::mult_to(arg, factor)` — in-place
element-wise product into `arg`'s buffer, returning `arg`. -/
def mult_to (a b : TileM) : TileM :=
  ⟨a.range, List.zipWith (· * ·) a.data b.data⟩

/-- The inverse of a permutation given as the list `π` with `π[i]` the image
of position `i`. -/
def invPerm (p : List Nat) : List Nat :=
  (List.range p.length).map (fun j => p.indexOf j)

/-- Application of a permutation to an ordered sequence, TiledArray
convention: `(p * s)[p[i]] = s[i]`. -/
def applyPermTA (p : List Nat) (xs : List α) (dflt : α) : List α :=
  (invPerm p).map (fun i => xs.getD i dflt)

/-- The source coordinate that a permuted tile reads for a given output
coordinate: `c[i] = cOut[p[i]]`. -/
def pullCoord (p : List Nat) (cOut : List Int) : List Int :=
  p.map (fun j => cOut.getD j 0)

/-- Modelled from the spec: `permute(perm, tile)` — the permuted tile's range
is the permuted box and its element at output coordinate `c'` (with
`c'[p[i]] = c[i]`) is the source element at `c`; the permuting `mult`
overload fuses this with the product. -/
def permuteTile (p : List Nat) (t : TileM) : TileM :=
  let newRange := applyPermTA p t.range (0, 0)
  ⟨newRange,
   (List.range (ShapeH.nelements newRange)).map
     (fun k => t.data.getD (ShapeH.ord t.range (pullCoord p (ShapeH.coord newRange k))) 0)⟩

/-- A binary-operation argument: the distinguished `ZeroTensor` value or an
actual tile. -/
inductive TileArg where
  | zero
  | tile (t : TileM)
  deriving DecidableEq, Repr

/-- Outcome of `Mult::eval`: a result tile, or the fatal `TA_ASSERT(false)`
of the ZeroTensor overloads. -/
inductive EvalOut where
  | ok (t : TileM)
  | assertFailure
  deriving DecidableEq, Repr

/-- The non-permuting `Mult::eval` overload family (mult.h lines 97-145),
dispatched on the effective consumability flags `left_is_consumable` /
`right_is_consumable`:  `¬(LC ∨ RC)` → `mult(first, second)`;  `LC` →
`mult_to(first, second)`;  `¬LC ∧ RC` → `mult_to(second, first)`.  Every
overload taking a `ZeroTensor` argument is `TA_ASSERT(false); // Invalid
arguments for this operation` (no overload takes two `ZeroTensor`s; that
call never occurs). -/
def multEval (lc rc : Bool) : TileArg → TileArg → EvalOut
  | .tile first, .tile second =>
    if lc then .ok (mult_to first second)
    else if rc then .ok (mult_to second first)
    else .ok (mult first second)
  | _, _ => .assertFailure

/-- The permuting `Mult::eval` overloads (mult.h lines 72-91): two tiles
produce `mult(first, second, perm)` (which cannot consume its arguments);
a `ZeroTensor` argument is `TA_ASSERT(false)`. -/
def multEvalPerm (p : List Nat) : TileArg → TileArg → EvalOut
  | .tile first, .tile second => .ok (permuteTile p (mult first second))
  | _, _ => .assertFailure

end TileOp

/-! ### `detail::tensor_reduce` (src/TiledArray/tensor/kernels.h) -/

namespace Kernels

variable {S T U : Type}

/-- `math::reduce_op` (vector_op.h is not part of the source sample; modelled
from the spec as the element-wise fold of the reduction operation over a
contiguous block into the accumulator). -/
def reduceBlock (reduce : S → T → S) (acc : S) (block : List T) : S :=
  block.foldl reduce acc

/-- `tensor_reduce`, contiguous plain-tensor overload (kernels.h lines
509-524): `math::reduce_op(reduce_op, volume, identity, data...)`; the
`JoinOp` parameter is unnamed and unused; returns the accumulator. -/
def tensorReduceC (reduce : S → T → S) (identity : S) (data : List T) : S :=
  reduceBlock reduce identity data

/-- `tensor_reduce`, contiguous tensor-of-tensors overload (lines 540-560):
for each inner tensor, `temp = tensor_reduce(reduce_op, join_op, identity,
tensor1[i])` and `join_op(result, temp)`, starting from `result = identity`;
returns `result`. -/
def tensorReduceToTC (reduce : S → T → S) (join : S → S → S) (identity : S)
    (data : List (List T)) : S :=
  data.foldl (fun result inner => join result (tensorReduceC reduce identity inner)) identity

/-- `tensor_reduce`, non-contiguous plain-tensor overload (lines 576-598):
the tensor decomposes into contiguous blocks of length `stride`; each block
is reduced into `temp = identity` by `math::reduce_op` and joined into
`result`; returns `result`. -/
def tensorReduceNC (reduce : S → T → S) (join : S → S → S) (identity : S)
    (blocks : List (List T)) : S :=
  blocks.foldl (fun result block => join result (reduceBlock reduce identity block)) identity

/-- `tensor_reduce`, non-contiguous tensor-of-tensors overload (lines
614-642): the loop body is identical to the plain non-contiguous overload
(the `wrapper_op` lambda wrapping the inner `tensor_reduce` is defined but
never used), accumulating into `result` — and the function then
`return identity;` (line 641), discarding `result`. -/
def tensorReduceToTNC (reduce : S → U → S) (join : S → S → S) (identity : S)
    (blocks : List (List U)) : S :=
  let _result :=
    blocks.foldl (fun result block => join result (reduceBlock reduce identity block)) identity
  identity

end Kernels

/-! ### Sparse-shape `gemm` norm bound (modelled from the spec) -/

namespace SparseGemm

open scoped Matrix

variable {M K N : Nat} {I J L : Type}

/-- The tile-level exact contraction with scaling factor `alpha`: output tile
`(i,j)` is `alpha • Σ_k A[i,k] ⬝ B[k,j]` (the SUMMA evaluator's accumulation,
as exercised by the `sparse_eval` test in dist_eval_contraction_eval.cpp). -/
def contractionTile [Fintype J] (alpha : ℝ)
    (A : Fin M → Fin K → Matrix I J ℝ) (B : Fin K → Fin N → Matrix J L ℝ)
    (i : Fin M) (j : Fin N) : Matrix I L ℝ :=
  alpha • ∑ k, A i k * B k j

/-- Modelled from the spec: `SparseShape::gemm` (sparse_shape.h is not part
of the source sample) — "`gemm` computes the Frobenius-norm upper bound of
each output tile from pairwise tile norm products summed along the contracted
modes": the predicted norm of output tile `(i,j)` is
`|alpha| * Σ_k normA[i,k] * normB[k,j]`. -/
def gemmNormBound (alpha : ℝ) (nA : Fin M → Fin K → ℝ) (nB : Fin K → Fin N → ℝ)
    (i : Fin M) (j : Fin N) : ℝ :=
  |alpha| * ∑ k, nA i k * nB k j

/-- Modelled from the spec: the sparse shape's zero predicate —
"`is_zero(idx) ⇔ norm[idx] < τ`" (a tile whose norm equals the threshold is
nonzero). -/
def sparseIsZero (threshold normValue : ℝ) : Prop := normValue < threshold

end SparseGemm

end TiledArray

namespace ShapeH

/-! ### Mixed-radix lemmas for `Shape::ord` / `Shape::coord` -/

theorem dotN_cons (x y : Nat) (xs ys : List Nat) :
    dotN (x :: xs) (y :: ys) = x * y + dotN xs ys := by
  simp [dotN]

theorem dotZ_cons (x y : Int) (xs ys : List Int) :
    dotZ (x :: xs) (y :: ys) = x * y + dotZ xs ys := by
  simp [dotZ]

theorem goN_length (s : List Nat) (k : Nat) : (goN s k).length = s.length := by
  induction s generalizing k with
  | nil => rfl
  | cons a t ih =>
    by_cases h : 0 < k <;> simp [goN, h, ih]

theorem stridesN_length (l : List Nat) : (stridesN l).length = l.length := by
  induction l with
  | nil => rfl
  | cons a t ih => simp [stridesN, ih]

theorem dotN_goN_zero (s : List Nat) : dotN (goN s 0) s = 0 := by
  induction s with
  | nil => rfl
  | cons a t ih =>
    simp only [goN, Nat.lt_irrefl, if_neg, not_false_eq_true, dotN_cons, ih,
      Nat.zero_mul, Nat.add_zero]

theorem sub_div_mul_eq_mod (k s : Nat) : k - k / s * s = k % s := by
  have h1 : s * (k / s) + k % s = k := Nat.div_add_mod k s
  have h2 : k / s * s = s * (k / s) := Nat.mul_comm _ _
  omega

/-- The digits produced by the coordinate loop, dotted with the linear steps,
reconstruct the linear index:  `ord(coord(k)) = k` at the level of machine
naturals. -/
theorem dotN_goN (ext : List Nat) (k : Nat) (hk : k < ext.prod) :
    dotN (goN (stridesN ext) k) (stridesN ext) = k := by
  induction ext generalizing k with
  | nil =>
    simp only [List.prod_nil, Nat.lt_one_iff] at hk
    subst hk
    rfl
  | cons e rest ih =>
    show dotN (goN (rest.prod :: stridesN rest) k) (rest.prod :: stridesN rest) = k
    by_cases h0 : 0 < k
    · have hP : 0 < rest.prod := by
        rcases Nat.eq_zero_or_pos rest.prod with h | h
        · rw [List.prod_cons, h, Nat.mul_zero] at hk
          omega
        · exact h
      simp only [goN, h0, if_pos, dotN_cons, sub_div_mul_eq_mod]
      rw [ih _ (Nat.mod_lt _ hP)]
      exact Nat.div_add_mod' k rest.prod
    · have hk0 : k = 0 := by omega
      subst hk0
      simp only [goN, Nat.lt_irrefl, if_neg, not_false_eq_true, dotN_cons, Nat.zero_mul,
        dotN_goN_zero, Nat.add_zero]

/-- Digit bound: a digit vector bounded by the extents dots with the strides
to a value below the total volume. -/
theorem dotN_lt_prod (ds ext : List Nat) (h : List.Forall₂ (· < ·) ds ext) :
    dotN ds (stridesN ext) < ext.prod := by
  induction h with
  | nil => simp [dotN, stridesN]
  | @cons d e ds' rest hde htail ih =>
    show dotN (d :: ds') (rest.prod :: stridesN rest) < (e :: rest).prod
    rw [dotN_cons, List.prod_cons]
    have h1 : d * rest.prod + dotN ds' (stridesN rest) < (d + 1) * rest.prod := by
      rw [Nat.succ_mul]
      omega
    exact h1.trans_le (Nat.mul_le_mul_right _ hde)

/-- The coordinate loop recovers the digit vector from its dotted value:
`coord(ord(c)) = c` at the level of machine naturals. -/
theorem goN_dotN (ds ext : List Nat) (h : List.Forall₂ (· < ·) ds ext) :
    goN (stridesN ext) (dotN ds (stridesN ext)) = ds := by
  induction h with
  | nil => rfl
  | @cons d e ds' rest hde htail ih =>
    show goN (rest.prod :: stridesN rest) (dotN (d :: ds') (rest.prod :: stridesN rest)) =
      d :: ds'
    rw [dotN_cons]
    have hm : dotN ds' (stridesN rest) < rest.prod := dotN_lt_prod _ _ htail
    have hP : 0 < rest.prod := Nat.lt_of_le_of_lt (Nat.zero_le _) hm
    by_cases h0 : 0 < d * rest.prod + dotN ds' (stridesN rest)
    · simp only [goN, h0, if_pos]
      have hdiv : (d * rest.prod + dotN ds' (stridesN rest)) / rest.prod = d := by
        rw [Nat.mul_comm d rest.prod, Nat.mul_add_div hP, Nat.div_eq_of_lt hm, Nat.add_zero]
      rw [hdiv]
      have hsub : d * rest.prod + dotN ds' (stridesN rest) - d * rest.prod =
          dotN ds' (stridesN rest) := by omega
      rw [hsub, ih]
    · have hm0 : dotN ds' (stridesN rest) = 0 := by omega
      have hd0 : d = 0 := by
        have hdp : d * rest.prod = 0 := by omega
        rcases Nat.mul_eq_zero.mp hdp with h | h
        · exact h
        · omega
      subst hd0
      simp only [goN, h0, if_neg, not_false_eq_true]
      rw [← hm0, ih]

/-! ### Casting the `Nat` layer to the `Int` definitions of shape.h -/

theorem cast_prod_extsN (box : Box) (h : ∀ p ∈ box, 0 ≤ extent p) :
    ((extsN box).prod : Int) = (box.map extent).prod := by
  induction box with
  | nil => simp [extsN]
  | cons p rest ih =>
    simp only [extsN, List.map_cons, List.prod_cons, Nat.cast_mul]
    rw [Int.toNat_of_nonneg (h p (List.mem_cons_self _ _))]
    have := ih (fun q hq => h q (List.mem_cons_of_mem _ hq))
    simp only [extsN] at this
    rw [this]

theorem linearStep_cast (box : Box) (h : ∀ p ∈ box, 0 ≤ extent p) :
    linearStep box = (stridesN (extsN box)).map (fun n : Nat => (n : Int)) := by
  induction box with
  | nil => rfl
  | cons p rest ih =>
    show (rest.map extent).prod :: linearStep rest = _
    have htail : ∀ q ∈ rest, 0 ≤ extent q := fun q hq => h q (List.mem_cons_of_mem _ hq)
    simp only [extsN, List.map_cons, stridesN]
    rw [← cast_prod_extsN rest htail, ih htail]
    rfl

theorem coordDigits_map_cast (s : List Nat) (k : Nat) :
    coordDigits (s.map (fun n : Nat => (n : Int))) k = goN s k := by
  induction s generalizing k with
  | nil => rfl
  | cons a t ih =>
    by_cases h0 : 0 < k <;>
      simp [coordDigits, goN, h0, ih, Int.toNat_natCast]

theorem dotZ_cast (a b : List Nat) :
    dotZ (a.map (fun n : Nat => (n : Int))) (b.map (fun n : Nat => (n : Int))) = (dotN a b : Int) := by
  induction a generalizing b with
  | nil => simp [dotZ, dotN]
  | cons x xs ih =>
    cases b with
    | nil => simp [dotZ, dotN]
    | cons y ys =>
      simp only [List.map_cons, dotZ_cons, dotN_cons, ih, Nat.cast_add, Nat.cast_mul]

theorem zip_sub_add_cancel (ds : List Nat) (box : Box) (hlen : ds.length = box.length) :
    List.zipWith (fun x p => x - p.1)
      (List.zipWith (fun (d : Nat) (p : Int × Int) => (d : Int) + p.1) ds box) box =
      ds.map (fun n : Nat => (n : Int)) := by
  induction ds generalizing box with
  | nil => cases box <;> simp
  | cons d dt ih =>
    cases box with
    | nil => simp at hlen
    | cons p bt =>
      simp only [List.zipWith_cons_cons, List.map_cons, Int.add_sub_cancel]
      rw [ih bt (by simpa using hlen)]

theorem dsOf_cons (p : Int × Int) (x : Int) (bs : Box) (cs : List Int) :
    dsOf (p :: bs) (x :: cs) = (x - p.1).toNat :: dsOf bs cs := rfl

theorem includes_iff (box : Box) (c : List Int) :
    includes box c = true ↔ List.Forall₂ (fun p x => p.1 ≤ x ∧ x < p.2) box c := by
  induction box generalizing c with
  | nil => cases c <;> simp [includes]
  | cons p bs ih =>
    cases c with
    | nil => simp [includes]
    | cons x cs =>
      simp [includes, ih, List.forall₂_cons, and_assoc]

theorem dsOf_lt_exts (box : Box) (c : List Int)
    (h : List.Forall₂ (fun p x => p.1 ≤ x ∧ x < p.2) box c) :
    List.Forall₂ (· < ·) (dsOf box c) (extsN box) := by
  induction h with
  | nil => exact List.Forall₂.nil
  | @cons p x bs cs hpx htail ih =>
    refine List.Forall₂.cons ?_ ih
    have h1 := hpx.1
    have h2 := hpx.2
    simp only [extent]
    omega

theorem zip_sub_eq_dsOf_cast (box : Box) (c : List Int)
    (h : List.Forall₂ (fun p x => p.1 ≤ x ∧ x < p.2) box c) :
    List.zipWith (fun x p => x - p.1) c box = (dsOf box c).map (fun n : Nat => (n : Int)) := by
  induction h with
  | nil => rfl
  | @cons p x bs cs hpx htail ih =>
    have h1 : ((x - p.1).toNat : Int) = x - p.1 := Int.toNat_of_nonneg (by
      have := hpx.1
      omega)
    rw [List.zipWith_cons_cons, dsOf_cons, List.map_cons, h1, ih]

theorem zip_add_dsOf_eq (box : Box) (c : List Int)
    (h : List.Forall₂ (fun p x => p.1 ≤ x ∧ x < p.2) box c) :
    List.zipWith (fun (d : Nat) (p : Int × Int) => (d : Int) + p.1) (dsOf box c) box = c := by
  induction h with
  | nil => rfl
  | @cons p x bs cs hpx htail ih =>
    rw [dsOf_cons, List.zipWith_cons_cons, ih]
    have h1 := hpx.1
    congr 1
    omega

theorem extent_nonneg_of_forall₂ (box : Box) (c : List Int)
    (h : List.Forall₂ (fun p x => p.1 ≤ x ∧ x < p.2) box c) :
    ∀ p ∈ box, 0 ≤ extent p := by
  induction h with
  | nil =>
    intro q hq
    exact absurd hq (List.not_mem_nil q)
  | @cons p x bs cs hpx htail ih =>
    intro q hq
    rcases List.mem_cons.mp hq with rfl | hq2
    · have h1 := hpx.1
      have h2 := hpx.2
      simp only [extent]
      omega
    · exact ih q hq2

/-- First direction of the round trip: `ord(coord(k)) = k` for every linear
index below the number of elements of the orthotope. -/
theorem ord_coord (box : Box) (k : Nat) (hk : k < nelements box) :
    ord box (coord box k) = k := by
  unfold nelements at hk
  have hne : (extsN box).prod ≠ 0 := by omega
  have hnn : ∀ p ∈ box, 0 ≤ extent p := by
    intro p hp
    by_contra hneg
    push_neg at hneg
    apply hne
    apply List.prod_eq_zero
    refine List.mem_map.mpr ⟨p, hp, ?_⟩
    exact Int.toNat_eq_zero.mpr hneg.le
  have hls := linearStep_cast box hnn
  have hlen : (goN (stridesN (extsN box)) k).length = box.length := by
    rw [goN_length, stridesN_length]
    simp [extsN]
  unfold ord ordZ coord
  rw [hls, coordDigits_map_cast, zip_sub_add_cancel _ _ hlen, dotZ_cast, dotN_goN _ _ hk]
  exact Int.toNat_natCast k

/-- Second direction of the round trip: `coord(ord(c)) = c` for every
coordinate contained in the orthotope. -/
theorem coord_ord (box : Box) (c : List Int) (hc : includes box c = true) :
    coord box (ord box c) = c := by
  have h := (includes_iff box c).mp hc
  have hnn := extent_nonneg_of_forall₂ box c h
  have hls := linearStep_cast box hnn
  unfold ord ordZ coord
  rw [zip_sub_eq_dsOf_cast box c h, hls, dotZ_cast, Int.toNat_natCast,
    coordDigits_map_cast, goN_dotN _ _ (dsOf_lt_exts box c h)]
  exact zip_add_dsOf_eq box c h

/-- C8: for every shape over an orthotope, ordinal and coordinate conversion
are mutually inverse under the row-major linear-step mapping with DIM-1 as
the least significant dimension: `ord(coord(k)) = k` for every linear index
`k` below the number of elements, and `coord(ord(c)) = c` for every
coordinate `c` contained in the orthotope. -/
theorem shape_ord_coord_inverse (box : Box) :
    (∀ k, k < nelements box → ord box (coord box k) = k) ∧
    (∀ c, includes box c = true → coord box (ord box c) = c) :=
  ⟨fun k hk => ord_coord box k hk, fun c hc => coord_ord box c hc⟩

/-- C8 witness: the orthotope `[1,3) × [0,2)` with linear index 3 and
coordinate `(2, 1)`. -/
theorem shape_ord_coord_inverse_witness :
    ShapeH.ord [(1, 3), (0, 2)] (ShapeH.coord [(1, 3), (0, 2)] 3) = 3 ∧
    ShapeH.coord [(1, 3), (0, 2)] (ShapeH.ord [(1, 3), (0, 2)] [2, 1]) = [2, 1] :=
  ⟨(shape_ord_coord_inverse [(1, 3), (0, 2)]).1 3 (by decide),
   (shape_ord_coord_inverse [(1, 3), (0, 2)]).2 [2, 1] (by decide)⟩

end ShapeH

namespace TiledArray

/-! ### Theorems -/

/-- Helper: the action trace of the deleter on a live pointer in an
initialized runtime, by cases on the sync outcome. -/
theorem Deleter.lazy_deleter_eq (rank : Nat) (outcome : Deleter.SyncOutcome) :
    Deleter.lazy_deleter false true rank outcome =
      match outcome with
      | .success => [.incCounter, .deleteImpl, .decCounter]
      | _ => [.incCounter, .logRank rank, .decCounter, .deleteImpl] := by
  cases outcome <;> rfl

/-- C2: for a non-null implementation pointer with the runtime initialized, if
`lazy_sync` throws any exception then the deleter absorbs it (no rethrow in
the trace), logs it with the process rank, decrements the cleanup counter and
still deletes the implementation; and the cleanup counter is decremented in
the success path and in every failure path. -/
theorem lazy_deleter_absorbs_and_cleans (rank : Nat) (outcome : Deleter.SyncOutcome) :
    (∀ e, Deleter.lazySyncCall outcome = .error e →
      Deleter.DAction.rethrow ∉ Deleter.lazy_deleter false true rank outcome ∧
      Deleter.DAction.logRank rank ∈ Deleter.lazy_deleter false true rank outcome ∧
      Deleter.DAction.decCounter ∈ Deleter.lazy_deleter false true rank outcome ∧
      Deleter.DAction.deleteImpl ∈ Deleter.lazy_deleter false true rank outcome) ∧
    Deleter.DAction.decCounter ∈ Deleter.lazy_deleter false true rank outcome ∧
    Deleter.DAction.deleteImpl ∈ Deleter.lazy_deleter false true rank outcome := by
  cases outcome <;> simp [Deleter.lazy_deleter, Deleter.lazySyncCall]

/-- C2 witness: concrete instance at rank 3 with a thrown `std::exception`. -/
theorem lazy_deleter_absorbs_and_cleans_witness :
    Deleter.DAction.rethrow ∉ Deleter.lazy_deleter false true 3 .stdExc ∧
    Deleter.DAction.logRank 3 ∈ Deleter.lazy_deleter false true 3 .stdExc ∧
    Deleter.DAction.decCounter ∈ Deleter.lazy_deleter false true 3 .stdExc ∧
    Deleter.DAction.deleteImpl ∈ Deleter.lazy_deleter false true 3 .stdExc :=
  (lazy_deleter_absorbs_and_cleans 3 .stdExc).1 .stdExc rfl

/-- C9: calling an initialized array with a comma-separated index string is
fatal exactly when the number of labels (one plus the number of commas)
differs from the array's rank, and returns a tensor expression when the
counts match. -/
theorem expr_call_label_check (rank : Nat) (vars : List Char) :
    (ExprCall.operatorCall true rank vars = .fatal ↔ ExprCall.numLabels vars ≠ rank) ∧
    (ExprCall.numLabels vars = rank → ExprCall.operatorCall true rank vars = .expr) := by
  unfold ExprCall.operatorCall
  by_cases h : ExprCall.numLabels vars = rank <;> simp [h]

/-- C10: the non-contiguous tensor-of-tensors `tensor_reduce` overload
returns the unmodified identity instead of the joined reduction value: on the
tensor-of-tensors holding the single element 1 under sum-reduction with
identity 0, the contiguous overloads return 1 while the non-contiguous
tensor-of-tensors overload returns 0, so the overloads disagree. -/
theorem tensor_reduce_tot_noncontig_returns_identity :
    Kernels.tensorReduceToTNC (fun s (u : List Int) => s + u.sum) (· + ·) 0 [[[1]]] = 0 ∧
    Kernels.tensorReduceToTC (fun s (x : Int) => s + x) (· + ·) 0 [[1]] = 1 ∧
    Kernels.tensorReduceC (fun s (x : Int) => s + x) 0 [1] = 1 ∧
    Kernels.tensorReduceNC (fun s (x : Int) => s + x) (· + ·) 0 [[1]] = 1 ∧
    Kernels.tensorReduceToTNC (fun s (u : List Int) => s + u.sum) (· + ·) 0 [[[1]]] ≠
      Kernels.tensorReduceToTC (fun s (x : Int) => s + x) (· + ·) 0 [[1]] := by
  refine ⟨rfl, rfl, rfl, rfl, ?_⟩
  decide

/-- C4 counterexample: the element-wise multiply tile operation does not
accept a `ZeroTensor` argument — with a zero left argument and the concrete
non-zero right tile `[5]` the non-consuming evaluation path hits
`TA_ASSERT(false)` instead of completing. -/
theorem mult_zero_arg_asserts :
    TileOp.multEval false false .zero (.tile ⟨[(0, 1)], [5]⟩) = .assertFailure := by
  rfl

/-- C4 amended: a `ZeroTensor` argument to the `Mult` tile operation is
rejected with a fatal assertion (`TA_ASSERT(false)`, "Invalid arguments for
this operation") rather than short-circuiting, in every consumability
configuration and both with and without a permutation argument; only two
actual tiles are accepted, in which case the evaluation completes and
produces the (possibly permuted) element-wise product. -/
theorem mult_zero_tile_rejected (lc rc : Bool) (p : List Nat) (x y : TileOp.TileArg) :
    ((x = .zero ∨ y = .zero) →
      TileOp.multEval lc rc x y = .assertFailure ∧
      TileOp.multEvalPerm p x y = .assertFailure) ∧
    (∀ a b, x = .tile a → y = .tile b →
      TileOp.multEvalPerm p x y = .ok (TileOp.permuteTile p (TileOp.mult a b)) ∧
      TileOp.multEval lc rc x y ≠ .assertFailure) := by
  cases x with
  | zero =>
    cases y <;> simp [TileOp.multEval, TileOp.multEvalPerm]
  | tile a =>
    cases y with
    | zero => simp [TileOp.multEval, TileOp.multEvalPerm]
    | tile b =>
      refine ⟨by simp, ?_⟩
      intro a' b' ha hb
      cases ha
      cases hb
      refine ⟨rfl, ?_⟩
      cases lc <;> cases rc <;> simp [TileOp.multEval]

/-- C4 amended witness: zero left argument and right tile `[5]`, no
permutation, non-consuming configuration. -/
theorem mult_zero_tile_rejected_witness :
    TileOp.multEval false false .zero (.tile ⟨[(0, 1)], [5]⟩) = .assertFailure ∧
    TileOp.multEvalPerm [] .zero (.tile ⟨[(0, 1)], [5]⟩) = .assertFailure :=
  (mult_zero_tile_rejected false false [] .zero (.tile ⟨[(0, 1)], [5]⟩)).1 (Or.inl rfl)

/-- C5: for two tiles with congruent (equal) ranges, the `Mult` evaluation
returns the same element-wise product in all four consumability
configurations: the in-place paths `mult_to(first, second)` and
`mult_to(second, first)` agree with the out-of-place `mult(first, second)`. -/
theorem mult_consumability_agree (first second : TileOp.TileM)
    (hr : first.range = second.range) :
    ∀ lc rc : Bool,
      TileOp.multEval lc rc (.tile first) (.tile second) =
        .ok (TileOp.mult first second) := by
  intro lc rc
  cases lc with
  | true => rfl
  | false =>
    cases rc with
    | false => rfl
    | true =>
      show TileOp.EvalOut.ok (TileOp.mult_to second first) = _
      unfold TileOp.mult_to TileOp.mult
      rw [hr]
      refine congrArg TileOp.EvalOut.ok ?_
      refine congrArg (TileOp.TileM.mk second.range) ?_
      exact List.zipWith_comm_of_comm _ Int.mul_comm second.data first.data

/-- C5 witness: tiles `[2, 3]` and `[5, 7]` over the same range, right-only
consumable configuration. -/
theorem mult_consumability_agree_witness :
    TileOp.multEval false true (.tile ⟨[(0, 2)], [2, 3]⟩) (.tile ⟨[(0, 2)], [5, 7]⟩) =
      .ok (TileOp.mult ⟨[(0, 2)], [2, 3]⟩ ⟨[(0, 2)], [5, 7]⟩) :=
  mult_consumability_agree ⟨[(0, 2)], [2, 3]⟩ ⟨[(0, 2)], [5, 7]⟩ rfl false true

/-- C3: on a default-constructed (uninitialized) `DistArray` the checked
accessors raise the fatal user error of `check_pimpl`, but `shape()`, `id()`
and `get_shape()` dereference the null implementation pointer without raising
it: the code contradicts the claim (and its own `check_pimpl` convention) on
exactly these accessors. -/
theorem uninit_shape_id_deref_null :
    Uninit.shape none = .nullPointerDeref ∧
    Uninit.id none = .nullPointerDeref ∧
    Uninit.get_shape none = .nullPointerDeref ∧
    Uninit.shape none ≠ .fatalUserError ∧
    Uninit.id none ≠ .fatalUserError ∧
    Uninit.trange none = .fatalUserError ∧
    Uninit.range none = .fatalUserError ∧
    Uninit.size none = .fatalUserError ∧
    Uninit.world none = .fatalUserError ∧
    Uninit.pmap none = .fatalUserError ∧
    Uninit.is_dense none = .fatalUserError ∧
    Uninit.owner none 0 = .fatalUserError ∧
    Uninit.find none 0 = .fatalUserError := by
  decide

/-- C6: after `make_replicated()` every tile index below the array size is
reported local by the installed process map, whether or not the array was
already replicated.  The hypotheses are the pmap/world consistency invariants
validated by `DistArray::init` (`pmap->size() == trange.tiles_range().volume()`,
`pmap->rank() == world.rank()`, `pmap->procs() == world.size()`), the world
invariant `rank() < size()`, and the spec's pmap contract
`∀ i < size, owner(i) < procs`. -/
theorem make_replicated_all_local (a : PmapM.ArrayState)
    (hps : a.pmap.procs = a.worldSize)
    (hpr : a.pmap.rank = a.worldRank)
    (hsz : a.pmap.size = a.size)
    (hrank : a.worldRank < a.worldSize)
    (howner : ∀ f, a.pmap.kind = .generic f → ∀ i, i < a.size → f i < a.pmap.procs) :
    ∀ i, i < a.size → (PmapM.make_replicated a).pmap.is_local i = some true := by
  intro i hi
  unfold PmapM.make_replicated
  rcases hk : a.pmap.kind with _ | f
  · have hrep : a.pmap.is_replicated = true := by
      unfold PmapM.Pmap.is_replicated
      rw [hk]
    simp only [hrep, not_true_eq_false, false_and, if_neg, not_false_eq_true]
    unfold PmapM.Pmap.is_local
    rw [hk]
    simp [hsz, hi]
  · have hrep : a.pmap.is_replicated = false := by
      unfold PmapM.Pmap.is_replicated
      rw [hk]
    by_cases hw : 1 < a.worldSize
    · simp only [hrep, Bool.false_eq_true, not_false_eq_true, hw, and_self, if_pos]
      unfold PmapM.Pmap.is_local PmapM.replicatedPmap
      simp [hi]
    · simp only [hrep, Bool.false_eq_true, not_false_eq_true, hw, and_false, if_neg,
        not_false_eq_true]
      unfold PmapM.Pmap.is_local
      rw [hk]
      have hw1 : a.worldSize = 1 := by omega
      have hf : f i < 1 := by
        have := howner f hk i hi
        omega
      have hr : a.pmap.rank = 0 := by omega
      simp [hr, Nat.lt_one_iff.mp hf]

/-- C6 witness: a one-tile array with a blocked (generic) pmap on a
two-process world; after `make_replicated` tile 0 is local. -/
theorem make_replicated_all_local_witness :
    (PmapM.make_replicated ⟨2, 1, 1, ⟨2, 1, 1, .generic (fun _ => 0)⟩⟩).pmap.is_local 0 =
      some true :=
  make_replicated_all_local ⟨2, 1, 1, ⟨2, 1, 1, .generic (fun _ => 0)⟩⟩
    rfl rfl rfl (by decide)
    (by
      intro f hf i hi
      cases hf
      simp)
    0 (by decide)

/-- C7 counterexample: two `ReplicatedPmap` instances over the same number of
processes (2) and the same size (1) but with different local ranks return
different values of `owner(0)`: `owner` returns the local `rank_`. -/
theorem replicated_owner_disagrees :
    PmapM.Pmap.owner (PmapM.replicatedPmap 2 0 1) 0 ≠
      PmapM.Pmap.owner (PmapM.replicatedPmap 2 1 1) 0 := by
  decide

/-- C7 amended: `ReplicatedPmap::owner(i)` is deterministic but returns the
constructing process's own rank (`rank_`), so two instances over the same
size and process count with different local ranks return different values of
`owner(i)` whenever the index is in range; each instance reports every
in-range tile as local. -/
theorem replicated_owner_is_local_rank (procs size r1 r2 tile : Nat)
    (ht : tile < size) (hne : r1 ≠ r2) :
    PmapM.Pmap.owner (PmapM.replicatedPmap procs r1 size) tile = some r1 ∧
    PmapM.Pmap.owner (PmapM.replicatedPmap procs r2 size) tile = some r2 ∧
    PmapM.Pmap.owner (PmapM.replicatedPmap procs r1 size) tile ≠
      PmapM.Pmap.owner (PmapM.replicatedPmap procs r2 size) tile ∧
    PmapM.Pmap.is_local (PmapM.replicatedPmap procs r1 size) tile = some true ∧
    PmapM.Pmap.is_local (PmapM.replicatedPmap procs r2 size) tile = some true := by
  unfold PmapM.Pmap.owner PmapM.Pmap.is_local PmapM.replicatedPmap
  simp [ht, hne]

/-- C7 amended witness: size 4, two processes, ranks 0 and 1, tile 2. -/
theorem replicated_owner_is_local_rank_witness :
    PmapM.Pmap.owner (PmapM.replicatedPmap 2 0 4) 2 = some 0 ∧
    PmapM.Pmap.owner (PmapM.replicatedPmap 2 1 4) 2 = some 1 ∧
    PmapM.Pmap.owner (PmapM.replicatedPmap 2 0 4) 2 ≠
      PmapM.Pmap.owner (PmapM.replicatedPmap 2 1 4) 2 ∧
    PmapM.Pmap.is_local (PmapM.replicatedPmap 2 0 4) 2 = some true ∧
    PmapM.Pmap.is_local (PmapM.replicatedPmap 2 1 4) 2 = some true :=
  replicated_owner_is_local_rank 2 4 0 1 2 (by decide) (by decide)

/-- C9 witness: a rank-3 array called with a two-label string is fatal, and
with a three-label string returns an expression. -/
theorem expr_call_label_check_witness :
    (ExprCall.operatorCall true 3 [ 'i', ',', 'j' ] = .fatal ↔
      ExprCall.numLabels [ 'i', ',', 'j' ] ≠ 3) ∧
    ExprCall.operatorCall true 3 [ 'i', ',', 'j', ',', 'k' ] = .expr :=
  ⟨(expr_call_label_check 3 [ 'i', ',', 'j' ]).1,
   (expr_call_label_check 3 [ 'i', ',', 'j', ',', 'k' ]).2 (by decide)⟩

section SparseGemmSafety

attribute [local instance] Matrix.frobeniusSeminormedAddCommGroup
attribute [local instance] Matrix.frobeniusBoundedSMul

/-- C1: the sparse-shape gemm composition is safe.  If every input tile's
Frobenius norm is bounded by its recorded shape norm, then for every output
tile the predicted norm bound `|α| * Σ_k nA[i,k] * nB[k,j]` is at least the
true Frobenius norm of the exact contraction `α • Σ_k A[i,k] ⬝ B[k,j]`; a
tile whose bound equals the threshold is considered nonzero; and any output
tile whose true norm reaches the threshold has `is_zero` false. -/
theorem sparse_gemm_shape_safe {M K N : Nat} {I J L : Type}
    [Fintype I] [Fintype J] [Fintype L]
    (alpha threshold : ℝ)
    (A : Fin M → Fin K → Matrix I J ℝ) (B : Fin K → Fin N → Matrix J L ℝ)
    (nA : Fin M → Fin K → ℝ) (nB : Fin K → Fin N → ℝ)
    (hA : ∀ i k, ‖A i k‖ ≤ nA i k) (hB : ∀ k j, ‖B k j‖ ≤ nB k j)
    (i : Fin M) (j : Fin N) :
    ‖SparseGemm.contractionTile alpha A B i j‖ ≤ SparseGemm.gemmNormBound alpha nA nB i j ∧
    (SparseGemm.gemmNormBound alpha nA nB i j = threshold →
      ¬ SparseGemm.sparseIsZero threshold (SparseGemm.gemmNormBound alpha nA nB i j)) ∧
    (threshold ≤ ‖SparseGemm.contractionTile alpha A B i j‖ →
      ¬ SparseGemm.sparseIsZero threshold (SparseGemm.gemmNormBound alpha nA nB i j)) := by
  have key : ‖∑ k, A i k * B k j‖ ≤ ∑ k, nA i k * nB k j := by
    refine (norm_sum_le _ _).trans ?_
    refine Finset.sum_le_sum ?_
    intro k _
    refine (Matrix.frobenius_norm_mul (A i k) (B k j)).trans ?_
    exact mul_le_mul (hA i k) (hB k j) (norm_nonneg _) ((norm_nonneg _).trans (hA i k))
  have hmain : ‖SparseGemm.contractionTile alpha A B i j‖ ≤
      SparseGemm.gemmNormBound alpha nA nB i j := by
    unfold SparseGemm.contractionTile SparseGemm.gemmNormBound
    rw [norm_smul, Real.norm_eq_abs]
    exact mul_le_mul_of_nonneg_left key (abs_nonneg alpha)
  refine ⟨hmain, ?_, ?_⟩
  · intro heq
    unfold SparseGemm.sparseIsZero
    rw [heq]
    exact lt_irrefl threshold
  · intro hth
    unfold SparseGemm.sparseIsZero
    exact not_lt.mpr (hth.trans hmain)

/-- C1 witness: 1×1 tile grids of 1×1 zero tiles with zero recorded norms,
factor 1 and threshold 1. -/
theorem sparse_gemm_shape_safe_witness :
    ‖SparseGemm.contractionTile (1 : ℝ)
        (fun _ _ : Fin 1 => (0 : Matrix (Fin 1) (Fin 1) ℝ))
        (fun _ _ : Fin 1 => (0 : Matrix (Fin 1) (Fin 1) ℝ)) 0 0‖ ≤
      SparseGemm.gemmNormBound 1 (fun _ _ : Fin 1 => (0 : ℝ))
        (fun _ _ : Fin 1 => (0 : ℝ)) 0 0 ∧
    (SparseGemm.gemmNormBound 1 (fun _ _ : Fin 1 => (0 : ℝ))
        (fun _ _ : Fin 1 => (0 : ℝ)) 0 0 = 1 →
      ¬ SparseGemm.sparseIsZero 1 (SparseGemm.gemmNormBound 1
        (fun _ _ : Fin 1 => (0 : ℝ)) (fun _ _ : Fin 1 => (0 : ℝ)) 0 0)) ∧
    ((1 : ℝ) ≤ ‖SparseGemm.contractionTile (1 : ℝ)
        (fun _ _ : Fin 1 => (0 : Matrix (Fin 1) (Fin 1) ℝ))
        (fun _ _ : Fin 1 => (0 : Matrix (Fin 1) (Fin 1) ℝ)) 0 0‖ →
      ¬ SparseGemm.sparseIsZero 1 (SparseGemm.gemmNormBound 1
        (fun _ _ : Fin 1 => (0 : ℝ)) (fun _ _ : Fin 1 => (0 : ℝ)) 0 0)) :=
  sparse_gemm_shape_safe 1 1
    (fun _ _ => 0) (fun _ _ => 0) (fun _ _ => 0) (fun _ _ => 0)
    (fun _ _ => by simp) (fun _ _ => by simp) 0 0

end SparseGemmSafety

end TiledArray
